import Mathlib

/-!
Verification of `zilpool/database/miner.py` (Zilliqa Mining Proxy).

The module is embedded shallowly: each document class (`Miner`, `Worker`,
`HashRate`) becomes a record of its stat-bearing fields, the external
document store becomes an explicit `Db` value threaded through the
operations, timestamps are integers (seconds), and the store's success or
failure on an individual write is an explicit boolean oracle argument.
`PoWWindow.get_pow_window` is an external window-resolution collaborator
and is modelled as a pair of optional bounds passed in by the caller.
-/

namespace Zilpool

/-- The stat-bearing fields of a stored `Miner` document
(`zil_miners` collection). -/
structure MinerDoc where
  wallet_address : String
  work_submitted : Int
  work_failed : Int
  work_finished : Int
  work_verified : Int
  deriving Repr, DecidableEq

/-- A stored `Worker` document (`zil_mine_workers` collection); `id` stands
for the store-assigned document identity. -/
structure WorkerDoc where
  id : Nat
  wallet_address : String
  worker_name : String
  work_submitted : Int
  work_failed : Int
  work_finished : Int
  work_verified : Int
  deriving Repr, DecidableEq

/-- A stored `HashRate` sample (`zil_mine_hashrate` collection). -/
structure HashRateDoc where
  wallet_address : String
  worker_name : String
  hashrate : Int
  updated_time : Int
  deriving Repr, DecidableEq

/-- The external document store: the three collections the module touches,
plus a counter supplying fresh document identities for worker upserts. -/
structure Db where
  miners : List MinerDoc
  workers : List WorkerDoc
  hashrates : List HashRateDoc
  nextWorkerId : Nat
  deriving Repr, DecidableEq

/-- One `inc__...` entry of the `update_kwargs` dictionary after the
comprehension `{key: value for ... if value > 0}`: a strictly positive
delta increments the counter, any other delta is dropped from the update. -/
def posInc (cur delta : Int) : Int :=
  if 0 < delta then cur + delta else cur

/-- The document-level effect of `Miner.update_stat` (miner.py lines 90-98):
the four deltas are filtered to the strictly positive ones and applied as
atomic increments. -/
def bumpMiner (m : MinerDoc) (inc_submitted inc_failed inc_finished inc_verified : Int) :
    MinerDoc :=
  { m with
    work_submitted := posInc m.work_submitted inc_submitted
    work_failed := posInc m.work_failed inc_failed
    work_finished := posInc m.work_finished inc_finished
    work_verified := posInc m.work_verified inc_verified }

/-- The document-level effect of the worker half of `Worker.update_stat`
(miner.py lines 147-155): same positive-delta filtering as the miner. -/
def bumpWorker (w : WorkerDoc) (inc_submitted inc_failed inc_finished inc_verified : Int) :
    WorkerDoc :=
  { w with
    work_submitted := posInc w.work_submitted inc_submitted
    work_failed := posInc w.work_failed inc_failed
    work_finished := posInc w.work_finished inc_finished
    work_verified := posInc w.work_verified inc_verified }

/-- Modelled from the spec: `ModelMixin.get` (basemodel.py, not under src/):
a point query returning the document matching the filter, or not-found.
Used by `HashRate.log` to check that the miner is registered. -/
def Miner.get (db : Db) (wallet_address : String) : Option MinerDoc :=
  db.miners.find? (fun m => m.wallet_address == wallet_address)

/-- `Miner.update_stat` as a store operation on the miner keyed by its
wallet address: when the store accepts the update (`ok`), the filtered
increments are applied atomically and a truthy result is returned;
otherwise nothing changes. -/
def Miner.update_stat (ok : Bool) (wallet_address : String)
    (inc_submitted inc_failed inc_finished inc_verified : Int) (db : Db) : Db × Bool :=
  if ok then
    ({ db with
       miners := db.miners.map (fun m =>
         if m.wallet_address == wallet_address then
           bumpMiner m inc_submitted inc_failed inc_finished inc_verified
         else m) }, true)
  else (db, false)

/-- The `(wallet_address, worker_name)` filter of the worker upsert. -/
def workerPred (wallet_address worker_name : String) (w : WorkerDoc) : Bool :=
  w.wallet_address == wallet_address && w.worker_name == worker_name

/-- The `set__wallet_address` / `set__worker_name` part of the worker
upsert's modify. -/
def setWorkerFields (wallet_address worker_name : String) (w : WorkerDoc) : WorkerDoc :=
  { w with wallet_address := wallet_address, worker_name := worker_name }

/-- `findAndModify` touches one document: the first match is replaced, the
rest of the collection is untouched. -/
def replaceFirst : List WorkerDoc → (WorkerDoc → Bool) → WorkerDoc → List WorkerDoc
  | [], _, _ => []
  | w :: ws, p, d => if p w then d :: ws else w :: replaceFirst ws p d

/-- `Worker.get_or_create` (miner.py lines 119-129): an atomic
`modify(upsert=True, new=True)` keyed by `(wallet_address, worker_name)`.
If a document matches, its key fields are set (to the values they already
hold) and it is returned; otherwise a fresh document with zero counters is
inserted and returned. -/
def Worker.get_or_create (wallet_address worker_name : String) (db : Db) :
    WorkerDoc × Db :=
  match db.workers.find? (workerPred wallet_address worker_name) with
  | some w =>
      let w2 := setWorkerFields wallet_address worker_name w
      (w2, { db with workers := replaceFirst db.workers (workerPred wallet_address worker_name) w2 })
  | none =>
      let w : WorkerDoc :=
        ⟨db.nextWorkerId, wallet_address, worker_name, 0, 0, 0, 0⟩
      (w, { db with workers := db.workers ++ [w], nextWorkerId := db.nextWorkerId + 1 })

/-- `Worker.update_stat` (miner.py lines 147-162). `okWorker` / `okMiner`
are the store's verdicts on the two writes. If the worker's own update
succeeds, `self.miner` (modelled from the spec: `Miner.get_one` of
basemodel.py, a back-reference lookup by wallet address returning the miner
or not-found) is dereferenced without a null check: a missing miner raises
`AttributeError`. The Python method has no `return` statement, so the
normal outcome carries no success indicator (`Unit`). The returned `Db` is
the store state after whatever writes happened before any exception. -/
def Worker.update_stat (okWorker okMiner : Bool) (wallet_address worker_name : String)
    (inc_submitted inc_failed inc_finished inc_verified : Int) (db : Db) :
    Db × Except String Unit :=
  if okWorker then
    let db1 := { db with
      workers := db.workers.map (fun w =>
        if workerPred wallet_address worker_name w then
          bumpWorker w inc_submitted inc_failed inc_finished inc_verified
        else w) }
    match Miner.get db1 wallet_address with
    | none => (db1, Except.error ("AttributeError"))
    | some _ =>
        ((Miner.update_stat okMiner wallet_address
            inc_submitted inc_failed inc_finished inc_verified db1).1,
         Except.ok ())
  else (db, Except.ok ())

/-- `HashRate.log` (miner.py lines 182-195). `now` is `datetime.utcnow()`
at ingestion; `okUpsert` and `okSave` are the store's verdicts on the
worker upsert and the sample insert. -/
def HashRate.log (hashrate : Int) (wallet_address worker_name : String)
    (now : Int) (okUpsert okSave : Bool) (db : Db) : Bool × Db :=
  if hashrate < 0 then (false, db)
  else
    match Miner.get db wallet_address with
    | none => (false, db)
    | some _ =>
        if okUpsert then
          let wdb := Worker.get_or_create wallet_address worker_name db
          if okSave then
            (true, { wdb.2 with
                     hashrates := wdb.2.hashrates ++
                       [⟨wallet_address, worker_name, hashrate, now⟩] })
          else (false, wdb.2)
        else (false, db)

/-- The `(wallet_address, worker_name)` grouping key (`_id` of the first
`$group` stage). -/
def key (h : HashRateDoc) : String × String :=
  (h.wallet_address, h.worker_name)

/-- The `$match` stage of `epoch_hashrate`: `updated_time` between the
bounds (`$gte` / `$lte`, both inclusive) and the two optional exact-match
filters. -/
def matchSample (pow_start pow_end : Int) (wallet_address worker_name : Option String)
    (h : HashRateDoc) : Bool :=
  decide (pow_start ≤ h.updated_time) && decide (h.updated_time ≤ pow_end)
    && (match wallet_address with
        | none => true
        | some a => h.wallet_address == a)
    && (match worker_name with
        | none => true
        | some n => h.worker_name == n)

/-- `$max` of a group: Mongo only emits a group for a nonempty set of
documents, so the `[]` case is never reached by the pipeline. -/
def listMax : List Int → Int
  | [] => 0
  | x :: xs => xs.foldl max x

/-- The first `$group` stage: one output per distinct key, carrying the
`$max` of `hashrate` over the documents with that key. -/
def groupMaxes (l : List HashRateDoc) : List Int :=
  ((l.map key).dedup).map (fun k =>
    listMax ((l.filter (fun h => decide (key h = k))).map HashRateDoc.hashrate))

/-- `HashRate.epoch_hashrate` (miner.py lines 197-243). The PoW window
comes from the external `PoWWindow.get_pow_window` resolver; a missing
bound returns 0 before any query. Otherwise the three-stage pipeline
`$match` / `$group`(max per key) / `$group`(sum) runs, and an empty result
list yields 0. -/
def HashRate.epoch_hashrate (pow_start pow_end : Option Int)
    (wallet_address worker_name : Option String) (db : Db) : Int :=
  match pow_start, pow_end with
  | some ps, some pe =>
      let matched := db.hashrates.filter (matchSample ps pe wallet_address worker_name)
      let grouped := groupMaxes matched
      match grouped with
      | [] => 0
      | _ :: _ => grouped.sum
  | _, _ => 0

/-- Modelled from the spec: `ModelMixin.aggregate_count` (basemodel.py, not
under src/): runs the match stage, groups by the given key, and counts the
resulting groups. -/
def aggregate_count (mtch : HashRateDoc → Bool) (grp : HashRateDoc → String × String)
    (db : Db) : Nat :=
  (((db.hashrates.filter mtch).map grp).dedup).length

/-- `Worker.active_count` (miner.py lines 131-145): count the distinct
`(wallet_address, worker_name)` groups among samples with
`updated_time ≥ now − 3 hours`. -/
def Worker.active_count (now : Int) (db : Db) : Nat :=
  let three_hours := now - 3 * 3600
  aggregate_count (fun h => decide (three_hours ≤ h.updated_time)) key db

/-- Number of worker documents stored under a given key. -/
def countWorkers (wallet_address worker_name : String) (db : Db) : Nat :=
  (db.workers.filter (workerPred wallet_address worker_name)).length

/-- Specification-side restatement of the epoch aggregate, following the
spec's words: over the distinct `(account, workerName)` pairs of the
samples that fall in the window and pass the filters, sum the maximum
sample value of each pair. -/
def epochHashrateSpec (pow_start pow_end : Int)
    (wallet_address worker_name : Option String) (db : Db) : Int :=
  let matched := db.hashrates.filter (matchSample pow_start pow_end wallet_address worker_name)
  ∑ k in (matched.map key).toFinset,
    listMax ((matched.filter (fun h => decide (key h = k))).map HashRateDoc.hashrate)

/-- Pointwise "no counter decreased" between two miner documents. -/
def counterLeM (m m2 : MinerDoc) : Prop :=
  m.work_submitted ≤ m2.work_submitted ∧ m.work_failed ≤ m2.work_failed ∧
    m.work_finished ≤ m2.work_finished ∧ m.work_verified ≤ m2.work_verified

/-- Pointwise "no counter decreased" between two worker documents. -/
def counterLeW (w w2 : WorkerDoc) : Prop :=
  w.work_submitted ≤ w2.work_submitted ∧ w.work_failed ≤ w2.work_failed ∧
    w.work_finished ≤ w2.work_finished ∧ w.work_verified ≤ w2.work_verified

/-- Concrete store for the two-stage aggregation example of the spec:
worker A reports 100 then 150, worker B reports 200, all inside the epoch. -/
def exDb350 : Db :=
  ⟨[⟨("0x1"), 0, 0, 0, 0⟩], [],
   [⟨("0x1"), ("A"), 100, 10⟩, ⟨("0x1"), ("A"), 150, 20⟩, ⟨("0x1"), ("B"), 200, 30⟩], 0⟩

/-- A store with no documents at all. -/
def dbEmpty : Db := ⟨[], [], [], 0⟩

/-- A store holding a single sample whose timestamp sits exactly on the
epoch's end bound. -/
def dbEndSample : Db := ⟨[], [], [⟨("a"), ("w"), 5, 10⟩], 0⟩

/-- Store for the activity example: one pair with two samples 2 hours old
(relative to now = 20000), one pair with a sample 4 hours old. -/
def dbActive : Db :=
  ⟨[], [], [⟨("0x1"), ("A"), 7, 12800⟩, ⟨("0x1"), ("A"), 9, 13000⟩,
            ⟨("0x2"), ("B"), 3, 5600⟩], 0⟩

theorem posInc_le (cur d : Int) : cur ≤ posInc cur d := by
  unfold posInc; split <;> omega

theorem posInc_nonpos (cur d : Int) (h : d ≤ 0) : posInc cur d = cur := by
  unfold posInc; rw [if_neg (by omega)]

theorem posInc_pos (cur d : Int) (h : 0 < d) : posInc cur d = cur + d := by
  unfold posInc; rw [if_pos h]

theorem counterLeM_refl (m : MinerDoc) : counterLeM m m :=
  ⟨le_rfl, le_rfl, le_rfl, le_rfl⟩

theorem counterLeW_refl (w : WorkerDoc) : counterLeW w w :=
  ⟨le_rfl, le_rfl, le_rfl, le_rfl⟩

theorem counterLeM_bump (m : MinerDoc) (s f fin v : Int) :
    counterLeM m (bumpMiner m s f fin v) :=
  ⟨posInc_le _ _, posInc_le _ _, posInc_le _ _, posInc_le _ _⟩

theorem counterLeW_bump (w : WorkerDoc) (s f fin v : Int) :
    counterLeW w (bumpWorker w s f fin v) :=
  ⟨posInc_le _ _, posInc_le _ _, posInc_le _ _, posInc_le _ _⟩

theorem forall2_self {α : Type} (R : α → α → Prop) (h : ∀ a, R a a) :
    ∀ l : List α, List.Forall₂ R l l
  | [] => List.Forall₂.nil
  | a :: l => List.Forall₂.cons (h a) (forall2_self R h l)

theorem forall2_map {α : Type} (R : α → α → Prop) (f : α → α) (h : ∀ a, R a (f a)) :
    ∀ l : List α, List.Forall₂ R l (l.map f)
  | [] => List.Forall₂.nil
  | a :: l => List.Forall₂.cons (h a) (forall2_map R f h l)

theorem map_if_no_match {α : Type} (p : α → Bool) (f : α → α) :
    ∀ l : List α, (∀ a ∈ l, p a = false) →
      l.map (fun a => if p a then f a else a) = l := by
  intro l h
  induction l with
  | nil => rfl
  | cons a t ih =>
      have ha := h a (by simp)
      simp only [List.map_cons, ha]
      simp only [Bool.false_eq_true, if_false, List.cons.injEq, true_and]
      exact ih fun x hx => h x (by simp [hx])

/-- C3: every call to `update_stat` (on a `Miner` or a `Worker`) leaves each
counter with a zero or negative delta exactly unchanged, increases each
counter with a strictly positive delta by exactly that delta, and hence no
counter on any stored miner or worker document ever decreases through
`Miner.update_stat` or `Worker.update_stat`. -/
theorem update_stat_delta_filter (s f fin v : Int) :
    (∀ m : MinerDoc,
      ((s ≤ 0 → (bumpMiner m s f fin v).work_submitted = m.work_submitted) ∧
       (0 < s → (bumpMiner m s f fin v).work_submitted = m.work_submitted + s)) ∧
      ((f ≤ 0 → (bumpMiner m s f fin v).work_failed = m.work_failed) ∧
       (0 < f → (bumpMiner m s f fin v).work_failed = m.work_failed + f)) ∧
      ((fin ≤ 0 → (bumpMiner m s f fin v).work_finished = m.work_finished) ∧
       (0 < fin → (bumpMiner m s f fin v).work_finished = m.work_finished + fin)) ∧
      ((v ≤ 0 → (bumpMiner m s f fin v).work_verified = m.work_verified) ∧
       (0 < v → (bumpMiner m s f fin v).work_verified = m.work_verified + v))) ∧
    (∀ w : WorkerDoc,
      ((s ≤ 0 → (bumpWorker w s f fin v).work_submitted = w.work_submitted) ∧
       (0 < s → (bumpWorker w s f fin v).work_submitted = w.work_submitted + s)) ∧
      ((f ≤ 0 → (bumpWorker w s f fin v).work_failed = w.work_failed) ∧
       (0 < f → (bumpWorker w s f fin v).work_failed = w.work_failed + f)) ∧
      ((fin ≤ 0 → (bumpWorker w s f fin v).work_finished = w.work_finished) ∧
       (0 < fin → (bumpWorker w s f fin v).work_finished = w.work_finished + fin)) ∧
      ((v ≤ 0 → (bumpWorker w s f fin v).work_verified = w.work_verified) ∧
       (0 < v → (bumpWorker w s f fin v).work_verified = w.work_verified + v))) ∧
    (∀ (ok : Bool) (wa : String) (db : Db),
      List.Forall₂ counterLeM db.miners
        ((Miner.update_stat ok wa s f fin v db).1).miners) ∧
    (∀ (okW okM : Bool) (wa wn : String) (db : Db),
      List.Forall₂ counterLeW db.workers
        ((Worker.update_stat okW okM wa wn s f fin v db).1).workers ∧
      List.Forall₂ counterLeM db.miners
        ((Worker.update_stat okW okM wa wn s f fin v db).1).miners) := by
  refine ⟨?_, ?_, ?_, ?_⟩
  · intro m
    refine ⟨⟨?_, ?_⟩, ⟨?_, ?_⟩, ⟨?_, ?_⟩, ⟨?_, ?_⟩⟩ <;> intro h <;>
      first
        | exact posInc_nonpos _ _ h
        | exact posInc_pos _ _ h
  · intro w
    refine ⟨⟨?_, ?_⟩, ⟨?_, ?_⟩, ⟨?_, ?_⟩, ⟨?_, ?_⟩⟩ <;> intro h <;>
      first
        | exact posInc_nonpos _ _ h
        | exact posInc_pos _ _ h
  · intro ok wa db
    cases ok with
    | false => exact forall2_self _ counterLeM_refl _
    | true =>
        refine forall2_map _ _ (fun m => ?_) _
        dsimp only
        split
        · exact counterLeM_bump m s f fin v
        · exact counterLeM_refl m
  · intro okW okM wa wn db
    cases okW with
    | false => exact ⟨forall2_self _ counterLeW_refl _, forall2_self _ counterLeM_refl _⟩
    | true =>
        unfold Worker.update_stat
        simp only [if_true]
        rcases hM : Miner.get
            { db with workers := db.workers.map (fun w =>
                if workerPred wa wn w then bumpWorker w s f fin v else w) } wa with _ | m
        · simp only [hM]
          refine ⟨?_, forall2_self _ counterLeM_refl _⟩
          refine forall2_map _ _ (fun w => ?_) _
          dsimp only
          split
          · exact counterLeW_bump w s f fin v
          · exact counterLeW_refl w
        · simp only [hM]
          cases okM with
          | false =>
              refine ⟨?_, forall2_self _ counterLeM_refl _⟩
              refine forall2_map _ _ (fun w => ?_) _
              dsimp only
              split
              · exact counterLeW_bump w s f fin v
              · exact counterLeW_refl w
          | true =>
              constructor
              · refine forall2_map _ _ (fun w => ?_) _
                dsimp only
                split
                · exact counterLeW_bump w s f fin v
                · exact counterLeW_refl w
              · refine forall2_map _ _ (fun m2 => ?_) _
                dsimp only
                split
                · exact counterLeM_bump m2 s f fin v
                · exact counterLeM_refl m2

theorem update_stat_delta_filter_witness :
    (1 : Int) ≤ 0 ∨
      ((0 : Int) < 1 ∧
        (bumpMiner ⟨("a"), 0, 0, 0, 0⟩ 1 0 0 0).work_submitted = 0 + 1) :=
  Or.inr ⟨by decide,
    (((update_stat_delta_filter 1 0 0 0).1 ⟨("a"), 0, 0, 0, 0⟩).1).2 (by decide)⟩

/-- C2: the cascade of `Worker.update_stat`: when the worker's own counter
update fails, nothing happens at all (the store, and in particular the
owning miner's counters, is returned unchanged and no cascade occurs);
when it succeeds (and the store accepts the miner write), exactly the
miners matching the worker's wallet address receive the same four deltas,
through the same positive-delta filter. -/
theorem worker_update_cascade (okWorker okMiner : Bool) (wa wn : String)
    (s f fin v : Int) (db : Db) :
    (okWorker = false →
      Worker.update_stat okWorker okMiner wa wn s f fin v db = (db, Except.ok ())) ∧
    (okWorker = true → okMiner = true →
      ((Worker.update_stat okWorker okMiner wa wn s f fin v db).1).miners
        = db.miners.map (fun m =>
            if m.wallet_address == wa then bumpMiner m s f fin v else m)) := by
  constructor
  · intro h
    subst h
    rfl
  · intro hW hM
    subst hW
    subst hM
    unfold Worker.update_stat
    simp only [if_true]
    rcases hG : Miner.get
        { db with workers := db.workers.map (fun w =>
            if workerPred wa wn w then bumpWorker w s f fin v else w) } wa with _ | m
    · simp only [hG]
      have hnone : ∀ m ∈ db.miners, (m.wallet_address == wa) = false := by
        intro m hm
        have := List.find?_eq_none.mp hG m hm
        simpa using this
      exact (map_if_no_match (fun m => m.wallet_address == wa)
        (fun m => bumpMiner m s f fin v) db.miners hnone).symm
    · simp only [hG]
      rfl

theorem worker_update_cascade_witness :
    (true = true ∧ true = true ∧
      ((Worker.update_stat true true ("a") ("w") 1 2 3 4
          ⟨[⟨("a"), 0, 0, 0, 0⟩], [], [], 0⟩).1).miners = [⟨("a"), 1, 2, 3, 4⟩]) :=
  ⟨rfl, rfl,
    by
      rw [(worker_update_cascade true true ("a") ("w") 1 2 3 4
        ⟨[⟨("a"), 0, 0, 0, 0⟩], [], [], 0⟩).2 rfl rfl]
      decide⟩

/-- C10: `Worker.update_stat` dereferences the miner back-reference without
a null check. If a miner document for the worker's wallet address exists,
the exception branch is unreachable and the call ends normally; if the
worker update succeeded but no such miner exists, the call ends in an
`AttributeError` instead of a failure value; and in every case the normal
return carries no success indicator (the outcome is either the bare unit
or the exception). -/
theorem worker_update_requires_miner (okWorker okMiner : Bool) (wa wn : String)
    (s f fin v : Int) (db : Db) :
    ((Miner.get db wa).isSome = true →
      (Worker.update_stat okWorker okMiner wa wn s f fin v db).2 = Except.ok ()) ∧
    (okWorker = true → Miner.get db wa = none →
      (Worker.update_stat okWorker okMiner wa wn s f fin v db).2
        = Except.error ("AttributeError")) ∧
    (okWorker = false →
      Worker.update_stat okWorker okMiner wa wn s f fin v db = (db, Except.ok ())) ∧
    ((Worker.update_stat okWorker okMiner wa wn s f fin v db).2 = Except.ok () ∨
      (Worker.update_stat okWorker okMiner wa wn s f fin v db).2
        = Except.error ("AttributeError")) := by
  have hsame : Miner.get
      { db with workers := db.workers.map (fun w =>
          if workerPred wa wn w then bumpWorker w s f fin v else w) } wa
      = Miner.get db wa := rfl
  refine ⟨?_, ?_, ?_, ?_⟩
  · intro hM
    cases okWorker with
    | false => rfl
    | true =>
        unfold Worker.update_stat
        simp only [if_true]
        rcases hG : Miner.get
            { db with workers := db.workers.map (fun w =>
                if workerPred wa wn w then bumpWorker w s f fin v else w) } wa with _ | m
        · rw [hsame] at hG
          rw [hG] at hM
          simp at hM
        · simp only [hG]
  · intro hW hM
    subst hW
    unfold Worker.update_stat
    simp only [if_true]
    rw [hsame, hM]
  · intro h
    subst h
    rfl
  · cases okWorker with
    | false => exact Or.inl rfl
    | true =>
        unfold Worker.update_stat
        simp only [if_true]
        rcases hG : Miner.get
            { db with workers := db.workers.map (fun w =>
                if workerPred wa wn w then bumpWorker w s f fin v else w) } wa with _ | m
        · exact Or.inr (by simp only [hG])
        · exact Or.inl (by simp only [hG])

theorem worker_update_requires_miner_witness :
    (true = true ∧ Miner.get dbEmpty ("a") = none ∧
      (Worker.update_stat true true ("a") ("w") 1 0 0 0 dbEmpty).2
        = Except.error ("AttributeError")) :=
  ⟨rfl, rfl,
    (worker_update_requires_miner true true ("a") ("w") 1 0 0 0 dbEmpty).2.1 rfl rfl⟩

theorem setWorkerFields_of_pred (wa wn : String) (w : WorkerDoc)
    (h : workerPred wa wn w = true) : setWorkerFields wa wn w = w := by
  unfold workerPred at h
  rw [Bool.and_eq_true, beq_iff_eq, beq_iff_eq] at h
  obtain ⟨h1, h2⟩ := h
  cases w
  unfold setWorkerFields
  simp_all

theorem replaceFirst_find_self (p : WorkerDoc → Bool) :
    ∀ (l : List WorkerDoc) (w : WorkerDoc), l.find? p = some w →
      replaceFirst l p w = l := by
  intro l
  induction l with
  | nil => intro w h; simp [List.find?] at h
  | cons a t ih =>
      intro w h
      by_cases hp : p a
      · rw [List.find?_cons_of_pos _ hp] at h
        injection h with h
        subst h
        simp [replaceFirst, hp]
      · rw [List.find?_cons_of_neg _ hp] at h
        simp [replaceFirst, hp, ih w h]

theorem find_append_single (p : WorkerDoc → Bool) (w0 : WorkerDoc) (hw : p w0 = true) :
    ∀ l : List WorkerDoc, l.find? p = none → (l ++ [w0]).find? p = some w0 := by
  intro l h
  induction l with
  | nil => simp [List.find?_cons, hw]
  | cons a t ih =>
      have hall := List.find?_eq_none.mp h
      have ha : p a = false := by
        have := hall a (by simp)
        simpa using this
      have ht : t.find? p = none :=
        List.find?_eq_none.mpr fun x hx => hall x (by simp [hx])
      simp only [List.cons_append, List.find?_cons, ha]
      exact ih ht

theorem get_or_create_of_found (wa wn : String) (db : Db) (w : WorkerDoc)
    (h : db.workers.find? (workerPred wa wn) = some w) :
    Worker.get_or_create wa wn db
      = (setWorkerFields wa wn w,
         { db with workers := (replaceFirst db.workers (workerPred wa wn) (setWorkerFields wa wn w)) }) := by
  unfold Worker.get_or_create
  rw [h]

theorem get_or_create_of_absent (wa wn : String) (db : Db)
    (h : db.workers.find? (workerPred wa wn) = none) :
    Worker.get_or_create wa wn db
      = (⟨db.nextWorkerId, wa, wn, 0, 0, 0, 0⟩,
         { db with workers := db.workers ++ [⟨db.nextWorkerId, wa, wn, 0, 0, 0, 0⟩],
                   nextWorkerId := db.nextWorkerId + 1 }) := by
  unfold Worker.get_or_create
  rw [h]

/-- C9: `Worker.get_or_create` is idempotent: a second call with the same
`(wallet_address, worker_name)` returns the same worker document and the
same store, and after the first call the store holds exactly one document
for a previously absent key (and no duplicate is ever added to an existing
one: the count is `max` of the old count and 1). -/
theorem get_or_create_idempotent (wa wn : String) (db : Db) :
    (Worker.get_or_create wa wn (Worker.get_or_create wa wn db).2).1
        = (Worker.get_or_create wa wn db).1 ∧
    (Worker.get_or_create wa wn (Worker.get_or_create wa wn db).2).2
        = (Worker.get_or_create wa wn db).2 ∧
    countWorkers wa wn (Worker.get_or_create wa wn db).2
        = max (countWorkers wa wn db) 1 := by
  rcases hF : db.workers.find? (workerPred wa wn) with _ | w
  · -- key absent: the first call inserts one fresh document
    have hw0 : workerPred wa wn (⟨db.nextWorkerId, wa, wn, 0, 0, 0, 0⟩ : WorkerDoc) = true := by
      simp [workerPred]
    have h1 := get_or_create_of_absent wa wn db hF
    have hF2 : ((Worker.get_or_create wa wn db).2).workers.find? (workerPred wa wn)
        = some ⟨db.nextWorkerId, wa, wn, 0, 0, 0, 0⟩ := by
      rw [h1]
      exact find_append_single _ _ hw0 _ hF
    have h2 : Worker.get_or_create wa wn (Worker.get_or_create wa wn db).2
        = ((Worker.get_or_create wa wn db).1, (Worker.get_or_create wa wn db).2) := by
      rw [get_or_create_of_found wa wn _ _ hF2,
        setWorkerFields_of_pred _ _ _ hw0,
        replaceFirst_find_self _ _ _ hF2]
      rw [h1]
    refine ⟨by rw [h2], by rw [h2], ?_⟩
    have hcnt : (db.workers.filter (workerPred wa wn)).length = 0 := by
      have := List.find?_eq_none.mp hF
      rw [List.length_eq_zero, List.filter_eq_nil_iff]
      intro a ha
      exact this a ha
    unfold countWorkers
    rw [h1]
    simp only [List.filter_append, List.length_append, hcnt]
    simp [hw0]
  · -- key present: the first call touches only the first matching document
    have hpw : workerPred wa wn w = true := List.find?_some hF
    have hset : setWorkerFields wa wn w = w := setWorkerFields_of_pred _ _ _ hpw
    have h1 : Worker.get_or_create wa wn db = (w, db) := by
      rw [get_or_create_of_found wa wn db w hF, hset,
        replaceFirst_find_self _ _ _ hF]
    have hpos : 1 ≤ countWorkers wa wn db := by
      have hmem : w ∈ db.workers := List.mem_of_find?_eq_some hF
      have : w ∈ db.workers.filter (workerPred wa wn) :=
        List.mem_filter.mpr ⟨hmem, hpw⟩
      have hne : db.workers.filter (workerPred wa wn) ≠ [] :=
        List.ne_nil_of_mem this
      unfold countWorkers
      exact List.length_pos.mpr hne
    have h2 : Worker.get_or_create wa wn (Worker.get_or_create wa wn db).2 = (w, db) := by
      rw [h1]
      exact h1
    refine ⟨?_, ?_, ?_⟩
    · rw [h2, h1]
    · rw [h2, h1]
    · rw [h1]
      exact (max_eq_left hpos).symm

theorem groupMaxes_sum (l : List HashRateDoc) :
    (groupMaxes l).sum
      = ∑ k in (l.map key).toFinset,
          listMax ((l.filter (fun h => decide (key h = k))).map HashRateDoc.hashrate) := by
  have hnd := List.nodup_dedup (l.map key)
  have hfin : (l.map key).dedup.toFinset = (l.map key).toFinset := by
    ext k
    simp [List.mem_toFinset, List.mem_dedup]
  calc (groupMaxes l).sum
      = ((l.map key).dedup.map (fun k =>
          listMax ((l.filter (fun h => decide (key h = k))).map HashRateDoc.hashrate))).sum := rfl
    _ = ((l.map key).dedup.toFinset).sum (fun k =>
          listMax ((l.filter (fun h => decide (key h = k))).map HashRateDoc.hashrate)) :=
        (List.sum_toFinset _ hnd).symm
    _ = _ := by rw [hfin]

theorem epoch_hashrate_eq_grouped_sum (ps pe : Int) (wa wn : Option String) (db : Db) :
    HashRate.epoch_hashrate (some ps) (some pe) wa wn db
      = (groupMaxes (db.hashrates.filter (matchSample ps pe wa wn))).sum := by
  unfold HashRate.epoch_hashrate
  cases hg : groupMaxes (db.hashrates.filter (matchSample ps pe wa wn)) with
  | nil => simp [hg]
  | cons a t => simp [hg]

/-- C1: for a resolved epoch window, `epoch_hashrate` is the sum, over the
distinct `(wallet_address, worker_name)` pairs whose samples fall in the
window and pass the optional exact-match filters, of the maximum hashrate
among that pair's matching samples; with no matching samples it is 0; on
the spec's example store the unfiltered result is 350 and filtering by
worker B's name alone yields 200. -/
theorem epoch_hashrate_peak_sum (ps pe : Int) (wa wn : Option String) (db : Db) :
    HashRate.epoch_hashrate (some ps) (some pe) wa wn db
        = epochHashrateSpec ps pe wa wn db ∧
    (db.hashrates.filter (matchSample ps pe wa wn) = [] →
      HashRate.epoch_hashrate (some ps) (some pe) wa wn db = 0) ∧
    HashRate.epoch_hashrate (some 0) (some 100) none none exDb350 = 350 ∧
    HashRate.epoch_hashrate (some 0) (some 100) none (some ("B")) exDb350 = 200 := by
  refine ⟨?_, ?_, by decide, by decide⟩
  · rw [epoch_hashrate_eq_grouped_sum, groupMaxes_sum]
    unfold epochHashrateSpec
    rfl
  · intro hm
    rw [epoch_hashrate_eq_grouped_sum, hm]
    rfl

theorem epoch_hashrate_peak_sum_witness :
    dbEmpty.hashrates.filter (matchSample 0 100 none none) = [] ∧
    HashRate.epoch_hashrate (some 0) (some 100) none none dbEmpty = 0 :=
  ⟨rfl, (epoch_hashrate_peak_sum 0 100 none none dbEmpty).2.1 rfl⟩

/-- C6: when the window resolver leaves either bound unresolved,
`epoch_hashrate` returns 0 for every state of the sample store, without
raising an error. -/
theorem epoch_hashrate_unresolved (ps pe : Option Int) (wa wn : Option String) (db : Db)
    (h : ps = none ∨ pe = none) :
    HashRate.epoch_hashrate ps pe wa wn db = 0 := by
  rcases h with h | h
  · subst h
    cases pe <;> rfl
  · subst h
    cases ps <;> rfl

theorem epoch_hashrate_unresolved_witness :
    ((none : Option Int) = none ∨ (some (5 : Int)) = none) ∧
    HashRate.epoch_hashrate none (some 5) none none dbEmpty = 0 :=
  ⟨Or.inl rfl, epoch_hashrate_unresolved none (some 5) none none dbEmpty (Or.inl rfl)⟩

/-- Counterexample to C7 as stated: the `$lte` bound makes the window
end-inclusive, so the sample sitting exactly on the end bound (hashrate 5
at time 10 in window `[0, 10]`) is counted, not excluded: the aggregate is
5, not 0. -/
theorem epoch_end_sample_included :
    HashRate.epoch_hashrate (some 0) (some 10) none none dbEndSample = 5 ∧
    ¬ (HashRate.epoch_hashrate (some 0) (some 10) none none dbEndSample = 0) := by
  constructor <;> decide

/-- C7 (amended): the epoch window is inclusive at both ends: a sample
whose timestamp equals the end bound exactly is included in the
aggregation, and so is one whose timestamp equals the start bound. -/
theorem epoch_window_both_ends_inclusive (ps pe hr : Int) (wa wn : String) (h : ps ≤ pe) :
    HashRate.epoch_hashrate (some ps) (some pe) none none
        ⟨[], [], [⟨wa, wn, hr, pe⟩], 0⟩ = hr ∧
    HashRate.epoch_hashrate (some ps) (some pe) none none
        ⟨[], [], [⟨wa, wn, hr, ps⟩], 0⟩ = hr := by
  constructor <;>
  · unfold HashRate.epoch_hashrate
    simp [matchSample, h, groupMaxes, listMax, key, List.dedup_cons_of_not_mem]

theorem epoch_window_both_ends_inclusive_witness :
    (0 : Int) ≤ 10 ∧
    HashRate.epoch_hashrate (some 0) (some 10) none none
        ⟨[], [], [⟨("a"), ("w"), 7, 10⟩], 0⟩ = 7 :=
  ⟨by decide, (epoch_window_both_ends_inclusive 0 10 7 ("a") ("w") (by decide)).1⟩

/-- C8: `active_count` is the number of distinct
`(wallet_address, worker_name)` pairs having at least one sample whose
timestamp is at least `now − 3 hours`; on the example store the pair with
two 2-hour-old samples counts exactly once and the pair whose only sample
is 4 hours old does not count. -/
theorem active_count_distinct_pairs (now : Int) (db : Db) :
    Worker.active_count now db
        = (((db.hashrates.filter (fun h =>
              decide (now - 3 * 3600 ≤ h.updated_time))).map key).toFinset).card ∧
    Worker.active_count 20000 dbActive = 1 := by
  constructor
  · unfold Worker.active_count aggregate_count
    rw [List.card_toFinset]
  · decide

/-- C4: a strictly negative hashrate is rejected: `HashRate.log` returns
false and the store (in particular the sample collection) is unchanged. -/
theorem log_rejects_negative (hr : Int) (wa wn : String) (now : Int) (okUpsert okSave : Bool)
    (db : Db) (h : hr < 0) :
    HashRate.log hr wa wn now okUpsert okSave db = (false, db) := by
  unfold HashRate.log
  rw [if_pos h]

theorem log_rejects_negative_witness :
    (-1 : Int) < 0 ∧
    HashRate.log (-1) ("a") ("w") 0 true true dbEmpty = (false, dbEmpty) :=
  ⟨by decide, log_rejects_negative (-1) ("a") ("w") 0 true true dbEmpty (by decide)⟩

/-- C5: for a non-negative hashrate and an unregistered account (no miner
document for the wallet address), `HashRate.log` returns false and leaves
the store exactly unchanged: the worker upsert is never reached and no
worker, miner or sample is created. -/
theorem log_no_miner_no_write (hr : Int) (wa wn : String) (now : Int) (okUpsert okSave : Bool)
    (db : Db) (h0 : 0 ≤ hr) (h1 : Miner.get db wa = none) :
    HashRate.log hr wa wn now okUpsert okSave db = (false, db) := by
  unfold HashRate.log
  rw [if_neg (by omega), h1]

theorem log_no_miner_no_write_witness :
    (0 : Int) ≤ 5 ∧ Miner.get dbEmpty ("a") = none ∧
    HashRate.log 5 ("a") ("w") 0 true true dbEmpty = (false, dbEmpty) :=
  ⟨by decide, rfl, log_no_miner_no_write 5 ("a") ("w") 0 true true dbEmpty (by decide) rfl⟩

end Zilpool
